import Mathlib

/-!
Shallow embedding of the schema-migration engine of the repository
(`database-layer/migrations/migration_manager.py`) and proofs about it.

Strings are embedded as `List Char`; Python string primitives
(`str.split`, `str.replace(old, '')`, `str.strip`, lexicographic
comparison by code point) are modelled faithfully below.
-/

namespace MigrationEngine

/-- Python lexicographic strict comparison `a < b` on strings,
by code point, shorter-proper-prefix first. -/
def lexLt : List Char → List Char → Bool
  | [], [] => false
  | [], _ :: _ => true
  | _ :: _, [] => false
  | a :: as, b :: bs =>
    if a < b then true
    else if b < a then false
    else lexLt as bs

/-- Python `a <= b` on strings. -/
def pyLe (a b : List Char) : Bool := lexLt a b || a = b

/-- Does `sub` occur as a contiguous substring of `s`?  (`sub in s` in Python,
for nonempty `sub`.) -/
def hasSub (sub : List Char) : List Char → Bool
  | [] => sub.isPrefixOf []
  | c :: rest => sub.isPrefixOf (c :: rest) || hasSub sub rest

/-- Prepend a character to the first segment of a segment list. -/
def consHead (c : Char) : List (List Char) → List (List Char)
  | [] => [[c]]
  | h :: t => (c :: h) :: t

/-- Fueled worker for `splitOn`; the fuel is an upper bound on the length of
the remaining input, so the recursion is structural. -/
def splitGo (sep : List Char) : Nat → List Char → List (List Char)
  | 0, s => [s]
  | fuel + 1, s =>
    if sep.isPrefixOf s ∧ sep ≠ [] then
      [] :: splitGo sep fuel (s.drop sep.length)
    else
      match s with
      | [] => [[]]
      | c :: rest => consHead c (splitGo sep fuel rest)

/-- Python `s.split(sep)` for nonempty `sep`: segments of `s` between
non-overlapping occurrences of `sep`, scanning left to right. -/
def splitOn (sep s : List Char) : List (List Char) :=
  splitGo sep s.length s

/-- Python `s.replace(old, '')` for nonempty `old`: remove every
non-overlapping occurrence of `old`, scanning left to right
(equal to `''.join(s.split(old))`). -/
def pyReplaceDel (old s : List Char) : List Char :=
  (splitOn old s).flatten

/-- The characters Python `str.strip()` removes (ASCII whitespace). -/
def isPySpace (c : Char) : Bool :=
  c = ' ' || c = '\t' || c = '\n' || c = '\r' || c = '\x0b' || c = '\x0c'

/-- Python `s.strip()`: drop leading and trailing whitespace. -/
def pyStrip (s : List Char) : List Char :=
  ((s.dropWhile isPySpace).reverse.dropWhile isPySpace).reverse

/-- Worker for `pyTitle`: `prev` records whether the previous character was
alphabetic. -/
def pyTitleGo : Bool → List Char → List Char
  | _, [] => []
  | prev, c :: rest =>
    if c.isAlpha then
      (if prev then c.toLower else c.toUpper) :: pyTitleGo true rest
    else
      c :: pyTitleGo false rest

/-- Python `s.title()` restricted to ASCII: the first letter of every
alphabetic run is upper-cased, the rest lower-cased. -/
def pyTitle (s : List Char) : List Char := pyTitleGo false s

/-! ### Data model (`Migration`, migration files) -/

/-- `Migration.__init__` sets exactly the attributes `version`, `name`,
`up_sql`, `down_sql` and `created_at`; `created_at` is
`datetime.utcnow()`, modelled as an opaque `Nat` timestamp supplied by
the caller. -/
structure Migration where
  version : List Char
  name : List Char
  up_sql : List Char
  down_sql : List Char
  created_at : Nat
  deriving DecidableEq, Repr

/-- `hasattr(m, a)` on a `Migration` object after `__init__`: exactly the
five attributes assigned in `Migration.__init__` exist; in particular
`getattr(m, "checksum")` would raise `AttributeError`. -/
def Migration.hasattr (_ : Migration) (a : String) : Bool :=
  a ∈ ["version", "name", "up_sql", "down_sql", "created_at"]

/-- A file of the Definition Store: its name within the migrations
directory and its text content. -/
structure SqlFile where
  fname : List Char
  content : List Char
  deriving DecidableEq, Repr

/-- The `-- DOWN` marker of `_parse_migration_file`. -/
def downMarker : List Char := "-- DOWN".toList

/-- The `-- UP` marker of `_parse_migration_file`. -/
def upMarker : List Char := "-- UP".toList

/-- The content-splitting step of `_parse_migration_file`:
`parts = content.split('-- DOWN')`,
`up_sql = parts[0].replace('-- UP', '').strip()`,
`down_sql = parts[1].strip() if len(parts) > 1 else ""`. -/
def parseContent (content : List Char) : List Char × List Char :=
  let parts := splitOn downMarker content
  let up := pyStrip (pyReplaceDel upMarker (parts.headD []))
  let down := match parts with
    | _ :: p1 :: _ => pyStrip p1
    | _ => []
  (up, down)

/-- Does the filename (with `.sql` removed) match `*.sql` globbing?  A name
matches `*.sql` exactly when it ends with `.sql`. -/
def isSqlName (n : List Char) : Bool := ".sql".toList.isSuffixOf n

/-- `pathlib.Path.stem` for the names the loader enumerates: the name with
a final `.sql` removed, unless nothing would remain before the dot. -/
def stemOf (n : List Char) : List Char :=
  if ".sql".toList.isSuffixOf n ∧ n.length > 4 then n.take (n.length - 4) else n

/-- The filename regular expression `^(\d{14})_(.+)$` of
`_parse_migration_file`, on stems without embedded newlines: the stem is
fourteen ASCII digits, an underscore, and a nonempty remainder; on a
match it yields the 14-digit version and the remainder. -/
def parseStem (stem : List Char) : Option (List Char × List Char) :=
  if (stem.take 14).length = 14 ∧ (stem.take 14).all Char.isDigit ∧
      (stem.drop 14).take 1 = ['_'] ∧ (stem.drop 15) ≠ [] ∧
      (stem.drop 15).all (fun c => c ≠ '\n') then
    some (stem.take 14, stem.drop 15)
  else
    none

/-- `_parse_migration_file`: reject a stem that misses the
`^(\d{14})_(.+)$` pattern (logging a warning), otherwise build the
`Migration` with `name = rest.replace('_', ' ').title()` and the split
up/down scripts. -/
def parseMigrationFile (now : Nat) (f : SqlFile) : Option Migration :=
  match parseStem (stemOf f.fname) with
  | none => none
  | some (v, rest) =>
    let p := parseContent f.content
    some ⟨v, pyTitle (rest.map (fun c => if c = '_' then ' ' else c)), p.1, p.2, now⟩

/-- Ordering in which `sorted(self.migrations_dir.glob("*.sql"))` yields the
files: lexicographic by name (the paths share the directory part). -/
def fileLe (f g : SqlFile) : Prop := pyLe f.fname g.fname = true

instance : DecidableRel fileLe := fun f g => by
  unfold fileLe; infer_instance

/-- The scan of `_load_migrations` over the sorted file list: parseable
files contribute a `Migration` in order; files whose name misses the
pattern contribute a logged warning (recorded here by their stem). -/
def loadLoop (now : Nat) : List SqlFile → List Migration × List (List Char)
  | [] => ([], [])
  | f :: fs =>
    let r := loadLoop now fs
    match parseMigrationFile now f with
    | some m => (m :: r.1, r.2)
    | none => (r.1, stemOf f.fname :: r.2)

/-- `_load_migrations`: enumerate `*.sql` files, sort them by name, parse
each in order; returns the loaded migrations together with the stems that
were warned about and skipped. -/
def loadMigrationsW (now : Nat) (store : List SqlFile) : List Migration × List (List Char) :=
  loadLoop now ((store.filter (fun f => isSqlName f.fname)).insertionSort fileLe)

/-- `MigrationManager.get_migrations` after `_load_migrations` ran on the
given store. -/
def getMigrations (now : Nat) (store : List SqlFile) : List Migration :=
  (loadMigrationsW now store).1

/-- `MigrationManager.get_pending_migrations`:
`[m for m in self.migrations if m.version not in applied_versions]`. -/
def getPendingMigrations (migrations : List Migration)
    (applied_versions : List (List Char)) : List Migration :=
  migrations.filter (fun m => decide (m.version ∉ applied_versions))

/-- `MigrationManager.get_applied_migrations`:
`[m for m in self.migrations if m.version in applied_versions]`. -/
def getAppliedMigrations (migrations : List Migration)
    (applied_versions : List (List Char)) : List Migration :=
  migrations.filter (fun m => decide (m.version ∈ applied_versions))

/-! ### Ledger and orchestrator (`MigrationTracker`, `DatabaseMigrator`) -/

/-- Modelled from the spec: the original `MigrationTracker` stubs its
persistence (spec §9, "Unimplemented ledger I/O in the original"); the
spec's Ledger (§4.2) is a persisted table of applied versions.  We model
its state as the list of recorded versions: `get_applied_versions`
returns them, `mark_migration_applied` inserts the migration's version,
`mark_migration_rolled_back` deletes a version's row. -/
abbrev Ledger : Type := List (List Char)

/-- Modelled from the spec: `MigrationTracker.get_applied_versions`
returns all currently recorded versions. -/
def getAppliedVersions (ledger : Ledger) : List (List Char) := ledger

/-- Modelled from the spec: `MigrationTracker.mark_migration_applied`
inserts a ledger row for the migration's version. -/
def markMigrationApplied (ledger : Ledger) (m : Migration) : Ledger :=
  List.append ledger [m.version]

/-- Modelled from the spec: `MigrationTracker.mark_migration_rolled_back`
deletes the ledger row of the given version. -/
def markMigrationRolledBack (ledger : Ledger) (v : List Char) : Ledger :=
  List.erase ledger v

/-- Observable side effects of a migration run against the database and
the ledger. -/
inductive Event where
  /-- `connection.execute_query(migration.up_sql)` was issued for `m`. -/
  | execUp (m : Migration)
  /-- `migration` was recorded as applied in the ledger. -/
  | applied (v : List Char)
  /-- `connection.execute_query(migration.down_sql)` was issued for `m`. -/
  | execDown (m : Migration)
  /-- the ledger row of version `v` was deleted. -/
  | rolledBack (v : List Char)
  deriving DecidableEq, Repr

/-- The plan of `DatabaseMigrator.migrate_up`: pending migrations,
restricted to `version <= target_version` when a target is given. -/
def upPlan (migrations : List Migration) (target : Option (List Char))
    (ledger : Ledger) : List Migration :=
  let pending := getPendingMigrations migrations (getAppliedVersions ledger)
  match target with
  | some t => pending.filter (fun m => pyLe m.version t)
  | none => pending

/-- The loop of `DatabaseMigrator.migrate_up`: execute each plan entry's
`up_sql` and mark it applied; the first failing execution raises, which
the surrounding `try` turns into a `False` return, with nothing further
attempted.  Returns the boolean handed to the caller, the event trace
and the final ledger. -/
def migrateUpLoop (exec : List Char → Bool) :
    List Migration → Ledger → Bool × List Event × Ledger
  | [], ledger => (true, [], ledger)
  | m :: rest, ledger =>
    if exec m.up_sql then
      let r := migrateUpLoop exec rest (markMigrationApplied ledger m)
      (r.1, Event.execUp m :: Event.applied m.version :: r.2.1, r.2.2)
    else
      (false, [Event.execUp m], ledger)

/-- `DatabaseMigrator.migrate_up`. -/
def migrateUp (exec : List Char → Bool) (migrations : List Migration)
    (target : Option (List Char)) (ledger : Ledger) :
    Bool × List Event × Ledger :=
  migrateUpLoop exec (upPlan migrations target ledger) ledger

/-- Sort order of `applied_migrations.sort(key=lambda x: x.version,
reverse=True)`: stable, descending by version. -/
def verGe (a b : Migration) : Prop := pyLe b.version a.version = true

instance : DecidableRel verGe := fun a b => by
  unfold verGe; infer_instance

/-- The revert plan of `DatabaseMigrator.migrate_down`: applied
migrations, restricted to `version > target_version` when a target is
given, sorted descending by version. -/
def downPlan (migrations : List Migration) (target : Option (List Char))
    (ledger : Ledger) : List Migration :=
  let applied := getAppliedMigrations migrations (getAppliedVersions ledger)
  let applied2 : List Migration := match target with
    | some t => applied.filter (fun m => lexLt t m.version)
    | none => applied
  applied2.insertionSort verGe

/-- The loop of `DatabaseMigrator.migrate_down`: a plan entry with empty
`down_sql` is skipped with a warning (`continue`); otherwise its
`down_sql` is executed and its ledger row deleted; a failing execution
raises, which the surrounding `try` turns into a `False` return. -/
def migrateDownLoop (exec : List Char → Bool) :
    List Migration → Ledger → Bool × List Event × Ledger
  | [], ledger => (true, [], ledger)
  | m :: rest, ledger =>
    if m.down_sql = [] then
      migrateDownLoop exec rest ledger
    else if exec m.down_sql then
      let r := migrateDownLoop exec rest (markMigrationRolledBack ledger m.version)
      (r.1, Event.execDown m :: Event.rolledBack m.version :: r.2.1, r.2.2)
    else
      (false, [Event.execDown m], ledger)

/-- `DatabaseMigrator.migrate_down`. -/
def migrateDown (exec : List Char → Bool) (migrations : List Migration)
    (target : Option (List Char)) (ledger : Ledger) :
    Bool × List Event × Ledger :=
  migrateDownLoop exec (downPlan migrations target ledger) ledger

/-- The migration carried by an up-execution event, if any. -/
def upMigOf : Event → Option Migration
  | Event.execUp m => some m
  | _ => none

/-- The migration carried by a down-execution event, if any. -/
def downMigOf : Event → Option Migration
  | Event.execDown m => some m
  | _ => none

/-- The migrations whose `up_sql` was issued during a run, in order. -/
def execUpMigs (ev : List Event) : List Migration :=
  ev.filterMap upMigOf

/-- The migrations whose `down_sql` was issued during a run, in order. -/
def execDownMigs (ev : List Event) : List Migration :=
  ev.filterMap downMigOf

/-- `sep` has no border: no nonempty proper suffix-aligned shift of `sep`
is again a prefix of `sep`.  Both `-- UP` and `-- DOWN` satisfy this; it
rules out occurrences of `sep` straddling a segment boundary. -/
def noBorderP (sep : List Char) : Prop :=
  ∀ k < sep.length, 0 < k → ¬ (sep.drop k <+: sep)

instance (sep : List Char) : Decidable (noBorderP sep) :=
  inferInstanceAs (Decidable (∀ k < sep.length, 0 < k → ¬ (sep.drop k <+: sep)))

/-- Join lines back with newline separators. -/
def joinLines (ls : List (List Char)) : List Char :=
  (List.intersperse ['\n'] ls).flatten

/-- The parsing contract as the spec words it (§4.1, §6): the content is
split at the single reserved `-- DOWN` marker **line**; everything before
it — after dropping a leading `-- UP` marker line and the comment header
before that marker — is `up_script`; everything after it is
`down_script`, empty when the marker is absent; both are stripped. -/
def specParseContent (content : List Char) : List Char × List Char :=
  let lines := splitOn ['\n'] content
  let pre := lines.takeWhile (fun l => l ≠ downMarker)
  let post := (lines.dropWhile (fun l => l ≠ downMarker)).drop 1
  let upLines :=
    if pre.any (fun l => decide (l = upMarker)) then
      (pre.dropWhile (fun l => l ≠ upMarker)).drop 1
    else pre
  (pyStrip (joinLines upLines), pyStrip (joinLines post))

/-! ### Concrete inputs used by counterexamples and witnesses -/

/-- A migration file content with a comment header before the `-- UP`
marker line. -/
def headerContent : List Char :=
  "header\n-- UP\nCREATE\n-- DOWN\nDROP".toList

/-- A well-formed store of two migration files. -/
def demoStore : List SqlFile :=
  [⟨"20240102000000_add_color.sql".toList,
    "-- UP\nALTER TABLE widgets ADD color;\n-- DOWN\nALTER TABLE widgets DROP color;".toList⟩,
   ⟨"20240101000000_init.sql".toList,
    "-- UP\nCREATE TABLE widgets;\n-- DOWN\nDROP TABLE widgets;".toList⟩]

/-- A store whose two files carry the same 14-digit version prefix. -/
def dupStore : List SqlFile :=
  [⟨"20240101000000_a.sql".toList, "-- UP\nA;\n-- DOWN\na;".toList⟩,
   ⟨"20240101000000_b.sql".toList, "-- UP\nB;\n-- DOWN\nb;".toList⟩]

/-- A non-`.sql` file whose name nevertheless carries a valid 14-digit
version prefix. -/
def txtFile : SqlFile :=
  ⟨"20240103000000_extra.txt".toList, "-- UP\nX;\n-- DOWN\nx;".toList⟩

/-- A migration whose `down_sql` is empty. -/
def mNoDown : Migration :=
  ⟨"20240101000000".toList, "Init".toList, "CREATE TABLE widgets;".toList, [], 0⟩

/-- A migration with a non-empty `down_sql`. -/
def mWithDown : Migration :=
  ⟨"20240102000000".toList, "Add Color".toList,
   "ALTER TABLE widgets ADD color;".toList, "ALTER TABLE widgets DROP color;".toList, 0⟩

/-- A third migration, above the other two. -/
def mThird : Migration :=
  ⟨"20240103000000".toList, "More".toList, "CREATE TABLE more;".toList,
   "DROP TABLE more;".toList, 0⟩

/-! ### C9: pending/applied partition -/

/-- C9: for all loaded migrations `D` and applied versions `A`,
`get_pending_migrations` returns exactly the migrations of `D` whose
version is not in `A`, `get_applied_migrations` exactly those whose
version is in `A`, and no migration lies in both results. -/
theorem c9_pending_applied_partition (D : List Migration) (A : List (List Char))
    (m : Migration) :
    (m ∈ getPendingMigrations D A ↔ m ∈ D ∧ m.version ∉ A) ∧
    (m ∈ getAppliedMigrations D A ↔ m ∈ D ∧ m.version ∈ A) ∧
    ¬(m ∈ getPendingMigrations D A ∧ m ∈ getAppliedMigrations D A) := by
  simp only [getPendingMigrations, getAppliedMigrations, List.mem_filter,
    decide_eq_true_eq]
  refine ⟨trivial, trivial, ?_⟩
  rintro ⟨⟨-, hno⟩, ⟨-, hyes⟩⟩
  exact hno hyes

/-! ### C10: only `.sql` files are enumerated -/

/-- C10: the loader enumerates only `*.sql` files: a file with any other
extension—even one carrying a valid 14-digit version prefix—contributes
no `Migration` and no warning; removing it from the store leaves the
loader's entire output (migrations and warnings) unchanged. -/
theorem c10_non_sql_files_ignored (now : Nat) (s1 s2 : List SqlFile) (f : SqlFile)
    (h : isSqlName f.fname = false) :
    loadMigrationsW now (s1 ++ f :: s2) = loadMigrationsW now (s1 ++ s2) := by
  simp only [loadMigrationsW, List.filter_append, List.filter_cons, h]
  simp

/-- Witness for C10 at a concrete store: the `.txt` file with a valid
14-digit version prefix changes nothing about the loader's output. -/
theorem c10_witness :
    isSqlName txtFile.fname = false ∧
    loadMigrationsW 0 (demoStore ++ txtFile :: dupStore) =
      loadMigrationsW 0 (demoStore ++ dupStore) :=
  ⟨by decide, c10_non_sql_files_ignored 0 demoStore dupStore txtFile (by decide)⟩

/-! ### C6: no checksum is computed at load time -/

/-- C6 counterexample: a concrete loaded store yields exactly one
migration, and that migration carries no `checksum` attribute (in the
source, `Migration.__init__` assigns only `version`, `name`, `up_sql`,
`down_sql` and `created_at`), refuting the claim that every loaded
migration carries a checksum of the combined up+down text. -/
theorem c6_no_checksum_counterexample :
    (getMigrations 0 [⟨"20240101000000_init.sql".toList,
        "-- UP\nCREATE TABLE widgets;\n-- DOWN\nDROP TABLE widgets;".toList⟩]).length = 1 ∧
    ∀ m ∈ getMigrations 0 [⟨"20240101000000_init.sql".toList,
        "-- UP\nCREATE TABLE widgets;\n-- DOWN\nDROP TABLE widgets;".toList⟩],
      m.hasattr "checksum" = false := by
  decide

/-- C6 amended: every migration produced by the loader carries exactly the
attributes `version`, `name`, `up_sql`, `down_sql` and `created_at`; no
`checksum` attribute exists, so no content hash is computed at load
time. -/
theorem c6_loaded_migrations_have_no_checksum (now : Nat) (store : List SqlFile)
    (m : Migration) (_hm : m ∈ getMigrations now store) :
    m.hasattr "checksum" = false ∧ m.hasattr "version" = true ∧
    m.hasattr "name" = true ∧ m.hasattr "up_sql" = true ∧
    m.hasattr "down_sql" = true ∧ m.hasattr "created_at" = true := by
  refine ⟨?_, ?_, ?_, ?_, ?_, ?_⟩ <;> rfl

/-- Witness for C6's amended theorem at a concrete loaded migration. -/
theorem c6_witness :
    (⟨"20240101000000".toList, "Init".toList, "CREATE TABLE widgets;".toList,
      "DROP TABLE widgets;".toList, 0⟩ : Migration) ∈ getMigrations 0 demoStore ∧
    Migration.hasattr
      (⟨"20240101000000".toList, "Init".toList, "CREATE TABLE widgets;".toList,
        "DROP TABLE widgets;".toList, 0⟩ : Migration) "checksum" = false :=
  ⟨by decide,
   (c6_loaded_migrations_have_no_checksum 0 demoStore
     ⟨"20240101000000".toList, "Init".toList, "CREATE TABLE widgets;".toList,
      "DROP TABLE widgets;".toList, 0⟩ (by decide)).1⟩

/-! ### C1: empty `down_script` in the revert plan -/

/-- If every plan entry with a non-empty `down_sql` executes successfully,
the down-loop reverts exactly the plan entries with a non-empty
`down_sql`, in plan order, skipping the empty ones, and reports
success. -/
theorem migrateDownLoop_success (exec : List Char → Bool) :
    ∀ (p : List Migration) (L : Ledger),
      (∀ m ∈ p, m.down_sql ≠ [] → exec m.down_sql = true) →
      migrateDownLoop exec p L =
        (true,
         (p.filter (fun m => m.down_sql ≠ [])).flatMap
           (fun m => [Event.execDown m, Event.rolledBack m.version]),
         (p.filter (fun m => m.down_sql ≠ [])).foldl
           (fun l m => markMigrationRolledBack l m.version) L)
  | [], L, _ => rfl
  | m :: rest, L, h => by
    by_cases hd : m.down_sql = []
    · have hrest := migrateDownLoop_success exec rest L
        (fun x hx => h x (List.mem_cons_of_mem m hx))
      simp [migrateDownLoop, hd, hrest, List.filter_cons]
    · have hex : exec m.down_sql = true := h m (List.mem_cons_self m rest) hd
      have hrest := migrateDownLoop_success exec rest
        (markMigrationRolledBack L m.version)
        (fun x hx => h x (List.mem_cons_of_mem m hx))
      simp [migrateDownLoop, hd, hex, hrest, List.filter_cons]

/-- C1 counterexample: a revert plan containing a migration with an empty
`down_script` does **not** abort the whole run: the run still executes the
non-empty down script of `mWithDown`, deletes its ledger row, skips the
empty one with a warning, and reports success — executed reverts and
ledger deletions are not prevented. -/
theorem c1_counterexample :
    migrateDown (fun _ => true) [mNoDown, mWithDown] none
        [mNoDown.version, mWithDown.version] =
      (true, [Event.execDown mWithDown, Event.rolledBack mWithDown.version],
       [mNoDown.version]) ∧
    Event.execDown mWithDown ∈
      (migrateDown (fun _ => true) [mNoDown, mWithDown] none
        [mNoDown.version, mWithDown.version]).2.1 ∧
    mWithDown.version ∉
      (migrateDown (fun _ => true) [mNoDown, mWithDown] none
        [mNoDown.version, mWithDown.version]).2.2 := by
  decide

/-- C1 amended: a migration in the revert plan whose `down_script` is
empty is skipped with a warning and the run continues: every plan entry
with a non-empty `down_script` has its down script executed and its
ledger row deleted, in plan order, and the run reports success. -/
theorem c1_empty_down_is_skipped (exec : List Char → Bool)
    (ms : List Migration) (target : Option (List Char)) (L : Ledger)
    (h : ∀ m ∈ downPlan ms target L, m.down_sql ≠ [] → exec m.down_sql = true) :
    migrateDown exec ms target L =
      (true,
       ((downPlan ms target L).filter (fun m => m.down_sql ≠ [])).flatMap
         (fun m => [Event.execDown m, Event.rolledBack m.version]),
       ((downPlan ms target L).filter (fun m => m.down_sql ≠ [])).foldl
         (fun l m => markMigrationRolledBack l m.version) L) :=
  migrateDownLoop_success exec (downPlan ms target L) L h

/-- Witness for C1's amended theorem: the concrete run with one empty and
one non-empty `down_script`. -/
theorem c1_witness :
    (∀ m ∈ downPlan [mNoDown, mWithDown] none [mNoDown.version, mWithDown.version],
        m.down_sql ≠ [] → (fun _ => true) m.down_sql = true) ∧
    migrateDown (fun _ => true) [mNoDown, mWithDown] none
        [mNoDown.version, mWithDown.version] =
      (true,
       ((downPlan [mNoDown, mWithDown] none
          [mNoDown.version, mWithDown.version]).filter
            (fun m => m.down_sql ≠ [])).flatMap
         (fun m => [Event.execDown m, Event.rolledBack m.version]),
       ((downPlan [mNoDown, mWithDown] none
          [mNoDown.version, mWithDown.version]).filter
            (fun m => m.down_sql ≠ [])).foldl
         (fun l m => markMigrationRolledBack l m.version)
         [mNoDown.version, mWithDown.version]) :=
  ⟨by decide,
   c1_empty_down_is_skipped (fun _ => true) [mNoDown, mWithDown] none
     [mNoDown.version, mWithDown.version] (by decide)⟩

/-! ### C2/C3/C8: forward runs, failure behaviour, idempotent re-run -/

/-- A forward run that returns `True` has appended exactly its plan's
versions to the ledger. -/
theorem migrateUpLoop_true_ledger (exec : List Char → Bool) :
    ∀ (p : List Migration) (L : Ledger),
      (migrateUpLoop exec p L).1 = true →
      (migrateUpLoop exec p L).2.2 = List.append L (p.map (fun m => m.version))
  | [], L, _ => by simp [migrateUpLoop]
  | m :: rest, L, h => by
    by_cases hex : exec m.up_sql = true
    · have h' : (migrateUpLoop exec rest (markMigrationApplied L m)).1 = true := by
        simpa [migrateUpLoop, hex] using h
      have hrec := migrateUpLoop_true_ledger exec rest (markMigrationApplied L m) h'
      simp only [markMigrationApplied, List.append_eq] at hrec
      simp [migrateUpLoop, hex, markMigrationApplied, hrec, List.append_assoc]
    · simp [migrateUpLoop, hex] at h

/-- The loop of `migrate_up` on a plan whose first failing entry is `m`:
every earlier entry is executed and recorded once, `m`'s script is
issued once and fails, nothing after `m` is attempted, and the caller
receives `False`. -/
theorem migrateUpLoop_fail (exec : List Char → Bool) :
    ∀ (p1 : List Migration) (m : Migration) (p2 : List Migration) (L : Ledger),
      (∀ x ∈ p1, exec x.up_sql = true) → exec m.up_sql = false →
      migrateUpLoop exec (p1 ++ m :: p2) L =
        (false,
         p1.flatMap (fun x => [Event.execUp x, Event.applied x.version]) ++
           [Event.execUp m],
         List.append L (p1.map (fun x => x.version)))
  | [], m, p2, L, _, hm => by simp [migrateUpLoop, hm]
  | x :: p1, m, p2, L, h, hm => by
    have hx : exec x.up_sql = true := h x (List.mem_cons_self x p1)
    have hrest := migrateUpLoop_fail exec p1 m p2 (markMigrationApplied L x)
      (fun y hy => h y (List.mem_cons_of_mem x hy)) hm
    simp only [markMigrationApplied, List.append_eq] at hrest
    simp [migrateUpLoop, hx, markMigrationApplied, hrest, List.append_assoc]

/-- C2: after a forward run that ran to completion, a second `migrate_up`
with the same migration files computes an empty pending set, executes no
up script, records nothing, and leaves the ledger untouched. -/
theorem c2_second_up_run_is_noop (exec : List Char → Bool)
    (ms : List Migration) (L : Ledger) (ev : List Event) (L1 : Ledger)
    (h : migrateUp exec ms none L = (true, ev, L1)) :
    upPlan ms none L1 = [] ∧ migrateUp exec ms none L1 = (true, [], L1) := by
  have hL1 : L1 = List.append L ((upPlan ms none L).map (fun m => m.version)) := by
    have h1 : (migrateUpLoop exec (upPlan ms none L) L).1 = true := by
      rw [show migrateUpLoop exec (upPlan ms none L) L = (true, ev, L1) from h]
    have := migrateUpLoop_true_ledger exec (upPlan ms none L) L h1
    rw [show migrateUpLoop exec (upPlan ms none L) L = (true, ev, L1) from h] at this
    exact this
  have hplan : upPlan ms none L1 = [] := by
    apply List.filter_eq_nil_iff.2
    intro m hm
    simp only [decide_eq_true_eq, not_not]
    show m.version ∈ L1
    by_cases hv : m.version ∈ L
    · rw [hL1]; exact List.mem_append.2 (Or.inl hv)
    · have : m ∈ upPlan ms none L := by
        simp only [upPlan, getPendingMigrations, getAppliedVersions]
        exact List.mem_filter.2 ⟨hm, by simpa using hv⟩
      rw [hL1]
      exact List.mem_append.2 (Or.inr (List.mem_map_of_mem _ this))
  refine ⟨hplan, ?_⟩
  show migrateUpLoop exec (upPlan ms none L1) L1 = (true, [], L1)
  rw [hplan]
  rfl

/-- Witness for C2: a concrete successful run over `demoStore`'s
migrations followed by a second run that does nothing. -/
theorem c2_witness :
    upPlan (getMigrations 0 demoStore) none
      ((migrateUp (fun _ => true) (getMigrations 0 demoStore) none []).2.2) = [] ∧
    migrateUp (fun _ => true) (getMigrations 0 demoStore) none
      ((migrateUp (fun _ => true) (getMigrations 0 demoStore) none []).2.2) =
      (true, [],
       (migrateUp (fun _ => true) (getMigrations 0 demoStore) none []).2.2) :=
  c2_second_up_run_is_noop (fun _ => true) (getMigrations 0 demoStore) []
    (migrateUp (fun _ => true) (getMigrations 0 demoStore) none []).2.1
    (migrateUp (fun _ => true) (getMigrations 0 demoStore) none []).2.2
    (by decide)

/-! ### Order lemmas for `lexLt` -/

theorem lexLt_cons_iff {a b : Char} {as bs : List Char} :
    lexLt (a :: as) (b :: bs) = true ↔ a < b ∨ (a = b ∧ lexLt as bs = true) := by
  rcases lt_trichotomy a b with h | rfl | h
  · simp [lexLt, h]
  · simp [lexLt, lt_irrefl]
  · simp [lexLt, h, lt_asymm h, ne_of_gt h]

theorem lexLt_irrefl (a : List Char) : lexLt a a = false := by
  induction a with
  | nil => rfl
  | cons c cs ih => simp [lexLt, ih]

theorem lexLt_ne {a b : List Char} (h : lexLt a b = true) : a ≠ b := by
  intro he
  subst he
  simp [lexLt_irrefl] at h

theorem lexLt_trans : ∀ {a b c : List Char},
    lexLt a b = true → lexLt b c = true → lexLt a c = true
  | [], _ :: _, _ :: _, _, _ => rfl
  | x :: as, y :: bs, z :: cs, hab, hbc => by
    rcases lexLt_cons_iff.1 hab with hxy | ⟨rfl, hab'⟩ <;>
      rcases lexLt_cons_iff.1 hbc with hyz | ⟨rfl, hbc'⟩
    · exact lexLt_cons_iff.2 (Or.inl (lt_trans hxy hyz))
    · exact lexLt_cons_iff.2 (Or.inl hxy)
    · exact lexLt_cons_iff.2 (Or.inl hyz)
    · exact lexLt_cons_iff.2 (Or.inr ⟨rfl, lexLt_trans hab' hbc'⟩)

theorem lexLt_trichotomy : ∀ a b : List Char,
    lexLt a b = true ∨ a = b ∨ lexLt b a = true
  | [], [] => Or.inr (Or.inl rfl)
  | [], _ :: _ => Or.inl rfl
  | _ :: _, [] => Or.inr (Or.inr rfl)
  | x :: as, y :: bs => by
    rcases lt_trichotomy x y with hxy | rfl | hyx
    · exact Or.inl (lexLt_cons_iff.2 (Or.inl hxy))
    · rcases lexLt_trichotomy as bs with h | rfl | h
      · exact Or.inl (lexLt_cons_iff.2 (Or.inr ⟨rfl, h⟩))
      · exact Or.inr (Or.inl rfl)
      · exact Or.inr (Or.inr (lexLt_cons_iff.2 (Or.inr ⟨rfl, h⟩)))
    · exact Or.inr (Or.inr (lexLt_cons_iff.2 (Or.inl hyx)))

theorem pyLe_iff {a b : List Char} : pyLe a b = true ↔ lexLt a b = true ∨ a = b := by
  simp [pyLe, Bool.or_eq_true, decide_eq_true_eq]

theorem pyLe_total (a b : List Char) : pyLe a b = true ∨ pyLe b a = true := by
  rcases lexLt_trichotomy a b with h | rfl | h
  · exact Or.inl (pyLe_iff.2 (Or.inl h))
  · exact Or.inl (pyLe_iff.2 (Or.inr rfl))
  · exact Or.inr (pyLe_iff.2 (Or.inl h))

theorem pyLe_trans {a b c : List Char} (hab : pyLe a b = true)
    (hbc : pyLe b c = true) : pyLe a c = true := by
  rcases pyLe_iff.1 hab with h1 | rfl
  · rcases pyLe_iff.1 hbc with h2 | rfl
    · exact pyLe_iff.2 (Or.inl (lexLt_trans h1 h2))
    · exact pyLe_iff.2 (Or.inl h1)
  · exact hbc

theorem lexLt_of_pyLe_of_ne {a b : List Char} (h : pyLe a b = true)
    (hne : a ≠ b) : lexLt a b = true := by
  rcases pyLe_iff.1 h with h | rfl
  · exact h
  · exact absurd rfl hne

/-! ### C3: fail-fast atomicity of `migrate_up` -/

theorem mem_upPlan_version_not_in_ledger {ms : List Migration}
    {target : Option (List Char)} {L : Ledger} {m : Migration}
    (h : m ∈ upPlan ms target L) : m.version ∉ L := by
  have hpend : m ∈ getPendingMigrations ms (getAppliedVersions L) := by
    cases target with
    | none => exact h
    | some t => exact (List.mem_filter.1 h).1
  have := (List.mem_filter.1 hpend).2
  simpa [getAppliedVersions] using this

/-- C3: if the forward plan is `V1, V2, V3` and `V2`'s up script fails
after `V1` succeeded, the run aborts at once: the caller receives
`False`, the ledger has gained `V1` but not `V2`, and `V3`'s script was
never issued. -/
theorem c3_fail_fast (exec : List Char → Bool) (ms : List Migration)
    (target : Option (List Char)) (L : Ledger) (m1 m2 m3 : Migration)
    (hplan : upPlan ms target L = [m1, m2, m3])
    (h1 : exec m1.up_sql = true) (h2 : exec m2.up_sql = false)
    (h12 : lexLt m1.version m2.version = true)
    (h23 : lexLt m2.version m3.version = true) :
    migrateUp exec ms target L =
      (false, [Event.execUp m1, Event.applied m1.version, Event.execUp m2],
       L ++ [m1.version]) ∧
    m1.version ∈ (migrateUp exec ms target L).2.2 ∧
    m2.version ∉ (migrateUp exec ms target L).2.2 ∧
    Event.execUp m3 ∉ (migrateUp exec ms target L).2.1 := by
  have hrun : migrateUp exec ms target L =
      (false, [Event.execUp m1, Event.applied m1.version, Event.execUp m2],
       L ++ [m1.version]) := by
    show migrateUpLoop exec (upPlan ms target L) L = _
    rw [hplan, show [m1, m2, m3] = [m1] ++ m2 :: [m3] from rfl,
      migrateUpLoop_fail exec [m1] m2 [m3] L (by simpa using h1) h2]
    simp
  have hm2L : m2.version ∉ L :=
    mem_upPlan_version_not_in_ledger (by rw [hplan]; simp)
  have h21 : m2.version ≠ m1.version := fun he => lexLt_ne h12 he.symm
  have h31 : m3 ≠ m1 := by
    intro he
    exact lexLt_ne (lexLt_trans h12 h23) (by rw [he])
  have h32 : m3 ≠ m2 := by
    intro he
    exact lexLt_ne h23 (by rw [he])
  refine ⟨hrun, ?_, ?_, ?_⟩
  · rw [hrun]
    exact List.mem_append.2 (Or.inr (List.mem_singleton.2 rfl))
  · rw [hrun]
    intro hmem
    rcases List.mem_append.1 hmem with hL | hone
    · exact hm2L hL
    · exact h21 (List.mem_singleton.1 hone)
  · rw [hrun]
    intro hmem
    simp only [List.mem_cons, List.mem_singleton] at hmem
    rcases hmem with he | he | he | he
    · exact h31 (by injection he)
    · cases he
    · exact h32 (by injection he)
    · cases he

/-- Witness for C3: a concrete plan of three migrations in which the
second fails. -/
theorem c3_witness :
    upPlan [mNoDown, mWithDown, mThird] none [] = [mNoDown, mWithDown, mThird] ∧
    migrateUp (fun s => decide (s = mNoDown.up_sql)) [mNoDown, mWithDown, mThird]
        none [] =
      (false, [Event.execUp mNoDown, Event.applied mNoDown.version,
        Event.execUp mWithDown], [] ++ [mNoDown.version]) :=
  ⟨by decide,
   (c3_fail_fast (fun s => decide (s = mNoDown.up_sql)) [mNoDown, mWithDown, mThird]
     none [] mNoDown mWithDown mThird (by decide) (by decide) (by decide)
     (by decide) (by decide)).1⟩

/-! ### C8: error propagation to the Command Surface -/

/-- C8 counterexample: two runs that fail on different migrations — with
different failing versions, names and failing scripts (causes) — hand the
caller the very same value `False`: `migrate_up` catches the exception
and returns a bare boolean, so version, name and underlying cause are
not preserved in what reaches the Command Surface. -/
theorem c8_counterexample :
    (migrateUp (fun _ => false) [mNoDown] none []).1 = false ∧
    (migrateUp (fun _ => false) [mWithDown] none []).1 = false ∧
    (migrateUp (fun _ => false) [mNoDown] none []).1 =
      (migrateUp (fun _ => false) [mWithDown] none []).1 ∧
    (migrateUp (fun _ => false) [mNoDown] none []).2.1 = [Event.execUp mNoDown] ∧
    (migrateUp (fun _ => false) [mWithDown] none []).2.1 = [Event.execUp mWithDown] ∧
    mNoDown.version ≠ mWithDown.version ∧ mNoDown.up_sql ≠ mWithDown.up_sql := by
  decide

/-- The loop of `migrate_down` on a plan whose first failing entry is `n`:
every earlier entry is skipped (empty `down_sql`) or reverted once, `n`'s
script is issued once and fails, nothing after `n` is attempted, and the
caller receives `False`. -/
theorem migrateDownLoop_fail (exec : List Char → Bool) :
    ∀ (q1 : List Migration) (n : Migration) (q2 : List Migration) (L : Ledger),
      (∀ x ∈ q1, x.down_sql ≠ [] → exec x.down_sql = true) →
      n.down_sql ≠ [] → exec n.down_sql = false →
      migrateDownLoop exec (q1 ++ n :: q2) L =
        (false,
         (q1.filter (fun x => x.down_sql ≠ [])).flatMap
           (fun x => [Event.execDown x, Event.rolledBack x.version]) ++
           [Event.execDown n],
         (q1.filter (fun x => x.down_sql ≠ [])).foldl
           (fun l x => markMigrationRolledBack l x.version) L)
  | [], n, q2, L, _, hn, hex => by
    simp [migrateDownLoop, hn, hex]
  | x :: q1, n, q2, L, h, hn, hex => by
    by_cases hd : x.down_sql = []
    · have hrest := migrateDownLoop_fail exec q1 n q2 L
        (fun y hy => h y (List.mem_cons_of_mem x hy)) hn hex
      simp [migrateDownLoop, hd, hrest, List.filter_cons]
    · have hx : exec x.down_sql = true := h x (List.mem_cons_self x q1) hd
      have hrest := migrateDownLoop_fail exec q1 n q2
        (markMigrationRolledBack L x.version)
        (fun y hy => h y (List.mem_cons_of_mem x hy)) hn hex
      simp [migrateDownLoop, hd, hx, hrest, List.filter_cons]

/-- C8 amended: a script failure terminates the run at once with no
automatic retry — every earlier plan entry was executed exactly once and
nothing after the failing entry is attempted — but the error does not
propagate to the Command Surface: `migrate_up`/`migrate_down` catch the
exception and return only the bare boolean `False`; the failing
migration's version, name and cause are only logged, not part of the
returned value. -/
theorem c8_errors_swallowed_no_retry (exec : List Char → Bool)
    (ms : List Migration) (target : Option (List Char)) (L : Ledger)
    (p1 : List Migration) (m : Migration) (p2 : List Migration)
    (q1 : List Migration) (n : Migration) (q2 : List Migration)
    (hup : upPlan ms target L = p1 ++ m :: p2)
    (hp1 : ∀ x ∈ p1, exec x.up_sql = true) (hm : exec m.up_sql = false)
    (hdown : downPlan ms target L = q1 ++ n :: q2)
    (hq1 : ∀ x ∈ q1, x.down_sql ≠ [] → exec x.down_sql = true)
    (hn : n.down_sql ≠ []) (hnx : exec n.down_sql = false) :
    migrateUp exec ms target L =
      (false,
       p1.flatMap (fun x => [Event.execUp x, Event.applied x.version]) ++
         [Event.execUp m],
       L ++ p1.map (fun x => x.version)) ∧
    migrateDown exec ms target L =
      (false,
       (q1.filter (fun x => x.down_sql ≠ [])).flatMap
         (fun x => [Event.execDown x, Event.rolledBack x.version]) ++
         [Event.execDown n],
       (q1.filter (fun x => x.down_sql ≠ [])).foldl
         (fun l x => markMigrationRolledBack l x.version) L) := by
  constructor
  · show migrateUpLoop exec (upPlan ms target L) L = _
    rw [hup, migrateUpLoop_fail exec p1 m p2 L hp1 hm]
    rfl
  · show migrateDownLoop exec (downPlan ms target L) L = _
    rw [hdown, migrateDownLoop_fail exec q1 n q2 L hq1 hn hnx]

/-- Witness for C8's amended theorem: a concrete store in which the
pending `mNoDown` fails on the way up and the applied `mWithDown` fails
on the way down; both runs surface only `False`. -/
theorem c8_witness :
    migrateUp (fun _ => false) [mNoDown, mWithDown] none [mWithDown.version] =
      (false, [Event.execUp mNoDown], [mWithDown.version]) ∧
    migrateDown (fun _ => false) [mNoDown, mWithDown] none [mWithDown.version] =
      (false, [Event.execDown mWithDown], [mWithDown.version]) := by
  have h := c8_errors_swallowed_no_retry (fun _ => false) [mNoDown, mWithDown] none
    [mWithDown.version] [] mNoDown [] [] mWithDown [] (by decide)
    (by decide) (by decide) (by decide) (by decide) (by decide) (by decide)
  simpa using h

/-! ### C4: duplicate versions are not detected -/

/-- C4 counterexample: two files with the same 14-digit version prefix
load without any error or warning, and the returned migration list
contains two migrations with equal version — loading does not fail fast
and the duplicate is silently kept. -/
theorem c4_counterexample :
    ((loadMigrationsW 0 dupStore).1.map Migration.version) =
      ["20240101000000".toList, "20240101000000".toList] ∧
    (loadMigrationsW 0 dupStore).2 = [] := by
  decide

/-- C4 amended: if two well-formed `.sql` files carry the same 14-digit
version prefix, the loader loads both: the returned list contains two
migrations with equal version and the run emits no warning — duplicate
versions are never detected, and the ambiguous ordering is silently
resolved by filename order. -/
theorem c4_duplicate_versions_not_detected (now : Nat) (f1 f2 : SqlFile)
    (m1 m2 : Migration)
    (h1 : isSqlName f1.fname = true) (h2 : isSqlName f2.fname = true)
    (hp1 : parseMigrationFile now f1 = some m1)
    (hp2 : parseMigrationFile now f2 = some m2)
    (hv : m1.version = m2.version) :
    (loadMigrationsW now [f1, f2]).1.map Migration.version =
      [m1.version, m1.version] ∧
    (loadMigrationsW now [f1, f2]).2 = [] := by
  have hfil : List.filter (fun f => isSqlName f.fname) [f1, f2] = [f1, f2] := by
    simp [List.filter_cons, h1, h2]
  by_cases hle : fileLe f1 f2
  · constructor <;>
      simp [loadMigrationsW, hfil, List.insertionSort, List.orderedInsert, hle,
        loadLoop, hp1, hp2, hv]
  · constructor <;>
      simp [loadMigrationsW, hfil, List.insertionSort, List.orderedInsert, hle,
        loadLoop, hp1, hp2, hv]

/-- Witness for C4's amended theorem at the concrete duplicate store. -/
theorem c4_witness :
    (loadMigrationsW 0 [⟨"20240101000000_a.sql".toList, "-- UP\nA;\n-- DOWN\na;".toList⟩,
        ⟨"20240101000000_b.sql".toList, "-- UP\nB;\n-- DOWN\nb;".toList⟩]).1.map
      Migration.version = ["20240101000000".toList, "20240101000000".toList] ∧
    (loadMigrationsW 0 [⟨"20240101000000_a.sql".toList, "-- UP\nA;\n-- DOWN\na;".toList⟩,
        ⟨"20240101000000_b.sql".toList, "-- UP\nB;\n-- DOWN\nb;".toList⟩]).2 = [] :=
  c4_duplicate_versions_not_detected 0
    ⟨"20240101000000_a.sql".toList, "-- UP\nA;\n-- DOWN\na;".toList⟩
    ⟨"20240101000000_b.sql".toList, "-- UP\nB;\n-- DOWN\nb;".toList⟩
    ⟨"20240101000000".toList, "A".toList, "A;".toList, "a;".toList, 0⟩
    ⟨"20240101000000".toList, "B".toList, "B;".toList, "b;".toList, 0⟩
    (by decide) (by decide) (by decide) (by decide) (by decide)

/-! ### C5: splitting semantics of the content parser -/

theorem isPrefixOf_nil_of_ne {sep : List Char} (hsep : sep ≠ []) :
    sep.isPrefixOf ([] : List Char) = false := by
  cases sep with
  | nil => exact absurd rfl hsep
  | cons c cs => rfl

theorem splitGo_nil {sep : List Char} (hsep : sep ≠ []) :
    ∀ f : Nat, splitGo sep f [] = [[]]
  | 0 => rfl
  | f + 1 => by
    simp [splitGo, isPrefixOf_nil_of_ne hsep]

theorem splitGo_fuel_eq {sep : List Char} (hsep : sep ≠ []) :
    ∀ (f : Nat) (s : List Char) (g : Nat), s.length ≤ f → s.length ≤ g →
      splitGo sep f s = splitGo sep g s
  | 0, s, g, hf, _ => by
    have hs : s = [] := List.eq_nil_of_length_eq_zero (Nat.le_zero.1 hf)
    subst hs
    rw [splitGo_nil hsep, splitGo_nil hsep]
  | f + 1, s, g, hf, hg => by
    cases s with
    | nil => rw [splitGo_nil hsep, splitGo_nil hsep]
    | cons c rest =>
      cases g with
      | zero => exact absurd hg (by simp)
      | succ g' =>
        have hf' : rest.length ≤ f := by
          simp only [List.length_cons] at hf
          omega
        have hg' : rest.length ≤ g' := by
          simp only [List.length_cons] at hg
          omega
        have e : ∀ h : Nat, splitGo sep (h + 1) (c :: rest) =
            if sep.isPrefixOf (c :: rest) ∧ sep ≠ [] then
              [] :: splitGo sep h ((c :: rest).drop sep.length)
            else consHead c (splitGo sep h rest) := fun _ => rfl
        rw [e f, e g']
        by_cases hp : sep.isPrefixOf (c :: rest) = true
        · have hsl : 1 ≤ sep.length := by
            cases sep with
            | nil => exact absurd rfl hsep
            | cons _ _ => simp
          have hd : ((c :: rest).drop sep.length).length ≤ rest.length := by
            simp only [List.length_drop, List.length_cons]
            omega
          rw [if_pos ⟨hp, hsep⟩, if_pos ⟨hp, hsep⟩,
            splitGo_fuel_eq hsep f _ g' (le_trans hd hf') (le_trans hd hg')]
        · have hp' : ¬(sep.isPrefixOf (c :: rest) = true ∧ sep ≠ []) :=
            fun hand => hp hand.1
          rw [if_neg hp', if_neg hp',
            splitGo_fuel_eq hsep f rest g' hf' hg']

/-- One-step unfolding of `splitOn` for nonempty separators. -/
theorem splitOn_eq {sep : List Char} (hsep : sep ≠ []) (s : List Char) :
    splitOn sep s =
      if sep.isPrefixOf s then [] :: splitOn sep (s.drop sep.length)
      else
        match s with
        | [] => [[]]
        | c :: rest => consHead c (splitOn sep rest) := by
  cases s with
  | nil =>
    rw [show splitOn sep [] = [[]] from splitGo_nil hsep 0]
    simp [isPrefixOf_nil_of_ne hsep]
  | cons c rest =>
    have e : splitOn sep (c :: rest) =
        if sep.isPrefixOf (c :: rest) ∧ sep ≠ [] then
          [] :: splitGo sep rest.length ((c :: rest).drop sep.length)
        else consHead c (splitGo sep rest.length rest) := rfl
    rw [e]
    by_cases hp : sep.isPrefixOf (c :: rest) = true
    · have hsl : 1 ≤ sep.length := by
        cases sep with
        | nil => exact absurd rfl hsep
        | cons _ _ => simp
      have hd : ((c :: rest).drop sep.length).length ≤ rest.length := by
        simp only [List.length_drop, List.length_cons]
        omega
      rw [if_pos ⟨hp, hsep⟩, if_pos hp,
        splitGo_fuel_eq hsep rest.length _ ((c :: rest).drop sep.length).length hd
          (le_refl _)]
      rfl
    · have hp' : ¬(sep.isPrefixOf (c :: rest) = true ∧ sep ≠ []) :=
        fun hand => hp hand.1
      rw [if_neg hp', if_neg hp]
      rfl

theorem hasSub_cons_false {sep : List Char} {c : Char} {rest : List Char}
    (h : hasSub sep (c :: rest) = false) :
    sep.isPrefixOf (c :: rest) = false ∧ hasSub sep rest = false := by
  have := h
  unfold hasSub at this
  exact ⟨(Bool.or_eq_false_iff.1 this).1, (Bool.or_eq_false_iff.1 this).2⟩

/-- A string with no occurrence of `sep` splits into a single segment. -/
theorem splitOn_of_not_hasSub {sep : List Char} (hsep : sep ≠ []) :
    ∀ (s : List Char), hasSub sep s = false → splitOn sep s = [s]
  | [], _ => splitGo_nil hsep 0
  | c :: rest, h => by
    obtain ⟨hp, hr⟩ := hasSub_cons_false h
    rw [splitOn_eq hsep, hp]
    simp only [Bool.false_eq_true, if_false]
    rw [splitOn_of_not_hasSub hsep rest hr]
    rfl

theorem prefix_of_append_of_length_le {l x y : List Char}
    (h : l <+: x ++ y) (hl : l.length ≤ x.length) : l <+: x := by
  have h1 : l = (x ++ y).take l.length := List.prefix_iff_eq_take.1 h
  rw [List.take_append_of_le_length hl] at h1
  rw [h1]
  exact List.take_prefix _ _

/-- The key no-straddling fact: since `sep` has no border and does not
occur in the nonempty block `c :: A`, it is not a prefix of
`(c :: A) ++ sep ++ B`. -/
theorem not_prefix_straddle {sep : List Char} (_hsep : sep ≠ [])
    (hnb : noBorderP sep) {c : Char} {A B : List Char}
    (hA : hasSub sep (c :: A) = false) :
    ¬ (sep <+: (c :: A) ++ (sep ++ B)) := by
  intro hp
  rcases le_or_lt sep.length (c :: A).length with hle | hgt
  · have hpre : sep <+: (c :: A) := prefix_of_append_of_length_le hp hle
    have h1 : sep.isPrefixOf (c :: A) = true := List.isPrefixOf_iff_prefix.2 hpre
    rw [(hasSub_cons_false hA).1] at h1
    cases h1
  · obtain ⟨t, ht⟩ := hp
    have hn : (c :: A).length ≤ sep.length := le_of_lt hgt
    have htake1 : ((c :: A) ++ (sep ++ B)).take (c :: A).length = c :: A :=
      List.take_left _ _
    have htake2 : sep.take (c :: A).length = c :: A := by
      have h1 := congrArg (List.take (c :: A).length) ht
      rw [List.take_append_of_le_length hn] at h1
      rw [h1]
      exact htake1
    have hsplit : sep = (c :: A) ++ sep.drop (c :: A).length := by
      conv_lhs => rw [← List.take_append_drop (c :: A).length sep]
      rw [htake2]
    have hcancel : sep.drop (c :: A).length ++ t = sep ++ B := by
      have h2 : (c :: A) ++ (sep.drop (c :: A).length ++ t) =
          (c :: A) ++ (sep ++ B) := by
        rw [← List.append_assoc, ← hsplit]
        exact ht
      exact List.append_cancel_left h2
    have hdlen : (sep.drop (c :: A).length).length ≤ sep.length := by
      simp only [List.length_drop]
      omega
    have hdpre : sep.drop (c :: A).length <+: sep :=
      prefix_of_append_of_length_le ⟨t, hcancel⟩ hdlen
    exact hnb (c :: A).length hgt (by simp) hdpre

/-- Splitting `A ++ sep ++ B` when `sep` does not occur in `A` and has no
border: the first segment is exactly `A`. -/
theorem splitOn_append {sep : List Char} (hsep : sep ≠ [])
    (hnb : noBorderP sep) :
    ∀ (A B : List Char), hasSub sep A = false →
      splitOn sep (A ++ (sep ++ B)) = A :: splitOn sep B
  | [], B, _ => by
    rw [List.nil_append, splitOn_eq hsep,
      if_pos (List.isPrefixOf_iff_prefix.2 (List.prefix_append sep B))]
    rw [List.drop_left]
  | c :: A, B, hA => by
    have hp : sep.isPrefixOf ((c :: A) ++ (sep ++ B)) = false := by
      cases hb : sep.isPrefixOf ((c :: A) ++ (sep ++ B)) with
      | false => rfl
      | true =>
        exact absurd (List.isPrefixOf_iff_prefix.1 hb)
          (not_prefix_straddle hsep hnb hA)
    rw [List.cons_append, splitOn_eq hsep]
    rw [List.cons_append] at hp
    rw [hp]
    simp only [Bool.false_eq_true, if_false]
    rw [splitOn_append hsep hnb A B (hasSub_cons_false hA).2]
    rfl

/-- C5 counterexample: on a file whose content has a comment header before
the `-- UP` marker line, the code's parser keeps the header inside
`up_script` (it only deletes the `-- UP` substring), while the claimed
contract ignores the header and yields just the post-marker content; the
two disagree on this input. -/
theorem c5_counterexample :
    specParseContent headerContent = ("CREATE".toList, "DROP".toList) ∧
    (parseContent headerContent).1 = "header\n\nCREATE".toList ∧
    parseContent headerContent ≠ specParseContent headerContent := by
  decide

/-- C5 amended: the parser splits the raw content at occurrences of the
`-- DOWN` **substring** (not marker lines): when the content is
`A ++ "-- DOWN" ++ B` with no further `-- DOWN` occurrence in `A` or `B`,
`up_script` is `A` with every `-- UP` substring occurrence removed and
whitespace stripped — content before the markers is retained, not
ignored — and `down_script` is `B` stripped; when content `C` has no
`-- DOWN` occurrence, `down_script` is empty and `up_script` is `C` with
`-- UP` occurrences removed, stripped. -/
theorem c5_split_characterisation (A B C : List Char)
    (hA : hasSub downMarker A = false) (hB : hasSub downMarker B = false)
    (hC : hasSub downMarker C = false) :
    parseContent (A ++ downMarker ++ B) =
      (pyStrip (pyReplaceDel upMarker A), pyStrip B) ∧
    parseContent C = (pyStrip (pyReplaceDel upMarker C), []) := by
  have hsep : downMarker ≠ [] := by decide
  have hnb : noBorderP downMarker := by decide
  constructor
  · have hsplit : splitOn downMarker (A ++ (downMarker ++ B)) = [A, B] := by
      rw [splitOn_append hsep hnb A B hA, splitOn_of_not_hasSub hsep B hB]
    have hassoc : parseContent (A ++ downMarker ++ B) =
        parseContent (A ++ (downMarker ++ B)) := by
      rw [List.append_assoc]
    rw [hassoc]
    simp [parseContent, hsplit]
  · have hsplit : splitOn downMarker C = [C] :=
      splitOn_of_not_hasSub hsep C hC
    simp [parseContent, hsplit]

/-- Witness for C5's amended theorem at concrete blocks. -/
theorem c5_witness :
    hasSub downMarker "-- UP\nCREATE TABLE widgets;\n".toList = false ∧
    hasSub downMarker "\nDROP TABLE widgets;".toList = false ∧
    hasSub downMarker "-- UP\nCREATE ONLY;".toList = false ∧
    parseContent ("-- UP\nCREATE TABLE widgets;\n".toList ++ downMarker ++
        "\nDROP TABLE widgets;".toList) =
      (pyStrip (pyReplaceDel upMarker "-- UP\nCREATE TABLE widgets;\n".toList),
       pyStrip "\nDROP TABLE widgets;".toList) ∧
    parseContent "-- UP\nCREATE ONLY;".toList =
      (pyStrip (pyReplaceDel upMarker "-- UP\nCREATE ONLY;".toList), []) := by
  refine ⟨by decide, by decide, by decide, ?_, ?_⟩
  · exact (c5_split_characterisation "-- UP\nCREATE TABLE widgets;\n".toList
      "\nDROP TABLE widgets;".toList "-- UP\nCREATE ONLY;".toList
      (by decide) (by decide) (by decide)).1
  · exact (c5_split_characterisation "-- UP\nCREATE TABLE widgets;\n".toList
      "\nDROP TABLE widgets;".toList "-- UP\nCREATE ONLY;".toList
      (by decide) (by decide) (by decide)).2

/-! ### C7: ordering guarantees -/

instance : IsTotal SqlFile fileLe :=
  ⟨fun a b => pyLe_total a.fname b.fname⟩

instance : IsTrans SqlFile fileLe :=
  ⟨fun _ _ _ hab hbc => pyLe_trans hab hbc⟩

instance : IsTotal Migration verGe :=
  ⟨fun a b => by
    unfold verGe
    exact pyLe_total b.version a.version⟩

instance : IsTrans Migration verGe :=
  ⟨fun _ _ _ hab hbc => by
    unfold verGe at hab hbc ⊢
    exact pyLe_trans hbc hab⟩

theorem pyLe_refl (a : List Char) : pyLe a a = true :=
  pyLe_iff.2 (Or.inr rfl)

theorem pyLe_nil (b : List Char) : pyLe [] b = true := by
  cases b with
  | nil => exact pyLe_refl []
  | cons c cs => exact pyLe_iff.2 (Or.inl rfl)

/-- Python string `<=` is monotone under truncation to a fixed width. -/
theorem pyLe_take : ∀ (n : Nat) (a b : List Char),
    pyLe a b = true → pyLe (a.take n) (b.take n) = true
  | 0, _, _, _ => pyLe_refl []
  | _ + 1, [], b, _ => pyLe_nil _
  | _ + 1, _ :: _, [], h => by
    rcases pyLe_iff.1 h with h' | h'
    · cases h'
    · cases h'
  | n + 1, a :: as, b :: bs, h => by
    rcases pyLe_iff.1 h with h' | h'
    · rcases lexLt_cons_iff.1 h' with hab | ⟨rfl, h''⟩
      · exact pyLe_iff.2 (Or.inl (lexLt_cons_iff.2 (Or.inl hab)))
      · have := pyLe_take n as bs (pyLe_iff.2 (Or.inl h''))
        rcases pyLe_iff.1 this with ht | ht
        · exact pyLe_iff.2 (Or.inl (lexLt_cons_iff.2 (Or.inr ⟨rfl, ht⟩)))
        · simp only [List.take_succ_cons]
          rw [ht]
          exact pyLe_refl _
    · rw [h']
      exact pyLe_refl _

/-- The migrations the loader returns are exactly the parseable sorted
files, in order. -/
theorem loadLoop_fst (now : Nat) :
    ∀ fs : List SqlFile,
      (loadLoop now fs).1 = fs.filterMap (parseMigrationFile now)
  | [] => rfl
  | f :: fs => by
    unfold loadLoop
    cases hp : parseMigrationFile now f with
    | none =>
      simp only [List.filterMap_cons, hp]
      exact loadLoop_fst now fs
    | some m =>
      simp only [List.filterMap_cons, hp]
      rw [loadLoop_fst now fs]

/-- A successfully parsed file's version is the first 14 characters of its
filename. -/
theorem parse_version_take {now : Nat} {f : SqlFile} {m : Migration}
    (h : parseMigrationFile now f = some m) :
    m.version = f.fname.take 14 ∧ m.version.length = 14 := by
  unfold parseMigrationFile at h
  cases hs : parseStem (stemOf f.fname) with
  | none => rw [hs] at h; cases h
  | some vr =>
    rw [hs] at h
    unfold parseStem at hs
    by_cases hc : ((stemOf f.fname).take 14).length = 14 ∧
        ((stemOf f.fname).take 14).all Char.isDigit ∧
        ((stemOf f.fname).drop 14).take 1 = ['_'] ∧
        ((stemOf f.fname).drop 15) ≠ [] ∧
        ((stemOf f.fname).drop 15).all (fun c => c ≠ '\n')
    · rw [if_pos hc] at hs
      have hv : m.version = (stemOf f.fname).take 14 := by
        cases hs
        cases h
        rfl
      have hlen : ((stemOf f.fname).take 14).length = 14 := hc.1
      have hstemlen : 14 ≤ (stemOf f.fname).length := by
        rw [List.length_take] at hlen
        omega
      refine ⟨?_, by rw [hv]; exact hlen⟩
      rw [hv]
      unfold stemOf
      by_cases hcond : (".sql".toList.isSuffixOf f.fname ∧ f.fname.length > 4)
      · rw [if_pos hcond]
        unfold stemOf at hstemlen
        rw [if_pos hcond] at hstemlen
        rw [List.length_take] at hstemlen
        rw [List.take_take]
        congr 1
        omega
      · rw [if_neg hcond]
    · rw [if_neg hc] at hs
      cases hs

/-- Sorted file order gives weakly ascending version order across the
parsed migrations. -/
theorem loaded_pairwise_le (now : Nat) (store : List SqlFile) :
    List.Pairwise (fun m m' : Migration => pyLe m.version m'.version = true)
      (getMigrations now store) := by
  have hsort : List.Pairwise fileLe
      ((store.filter (fun f => isSqlName f.fname)).insertionSort fileLe) :=
    List.sorted_insertionSort fileLe _
  show List.Pairwise _ (loadMigrationsW now store).1
  unfold loadMigrationsW
  rw [loadLoop_fst]
  refine List.Pairwise.filterMap _ ?_ hsort
  intro f g hfg m hm m' hm'
  have h1 := parse_version_take (Option.mem_def.1 hm)
  have h2 := parse_version_take (Option.mem_def.1 hm')
  rw [h1.1, h2.1]
  exact pyLe_take 14 f.fname g.fname hfg

/-- Weak pairwise order plus distinct versions gives strict pairwise
order. -/
theorem pairwise_lt_of_le_nodup {l : List Migration}
    (hle : List.Pairwise (fun m m' : Migration => pyLe m.version m'.version = true) l)
    (hnd : (l.map Migration.version).Nodup) :
    List.Pairwise (fun m m' : Migration => lexLt m.version m'.version = true) l := by
  have hne : List.Pairwise (fun m m' : Migration => m.version ≠ m'.version) l :=
    List.pairwise_map.1 hnd
  exact (hle.and hne).imp (fun h => lexLt_of_pyLe_of_ne h.1 h.2)

/-- The up-executed migrations form a sublist of the plan. -/
theorem execUpMigs_sublist (exec : List Char → Bool) :
    ∀ (p : List Migration) (L : Ledger),
      List.Sublist (execUpMigs (migrateUpLoop exec p L).2.1) p
  | [], _ => by simp [migrateUpLoop, execUpMigs]
  | m :: rest, L => by
    by_cases hex : exec m.up_sql = true
    · have := execUpMigs_sublist exec rest (markMigrationApplied L m)
      simp only [migrateUpLoop, hex, if_true, execUpMigs, List.filterMap_cons,
        upMigOf] at this ⊢
      exact List.Sublist.cons₂ m this
    · simp only [migrateUpLoop, hex, if_false, execUpMigs, List.filterMap_cons,
        upMigOf, List.filterMap_nil]
      exact List.Sublist.cons₂ m (List.nil_sublist rest)

/-- The down-executed migrations form a sublist of the revert plan. -/
theorem execDownMigs_sublist (exec : List Char → Bool) :
    ∀ (p : List Migration) (L : Ledger),
      List.Sublist (execDownMigs (migrateDownLoop exec p L).2.1) p
  | [], _ => by simp [migrateDownLoop, execDownMigs]
  | m :: rest, L => by
    by_cases hd : m.down_sql = []
    · have := execDownMigs_sublist exec rest L
      simp only [migrateDownLoop, hd, if_true]
      exact List.Sublist.cons m this
    · by_cases hex : exec m.down_sql = true
      · have := execDownMigs_sublist exec rest (markMigrationRolledBack L m.version)
        simp only [migrateDownLoop, hd, hex, if_true, if_false, execDownMigs,
          List.filterMap_cons, downMigOf] at this ⊢
        exact List.Sublist.cons₂ m this
      · simp only [migrateDownLoop, hd, hex, if_false, execDownMigs,
          List.filterMap_cons, downMigOf, List.filterMap_nil]
        exact List.Sublist.cons₂ m (List.nil_sublist rest)

/-- The forward plan is a sublist of the loaded migrations. -/
theorem upPlan_sublist (ms : List Migration) (target : Option (List Char))
    (L : Ledger) : List.Sublist (upPlan ms target L) ms := by
  unfold upPlan getPendingMigrations
  cases target with
  | none => exact List.filter_sublist ms
  | some t =>
    exact List.Sublist.trans (List.filter_sublist _) (List.filter_sublist ms)

/-- The revert plan is a permutation of a sublist of the loaded
migrations. -/
theorem downPlan_perm (ms : List Migration) (target : Option (List Char))
    (L : Ledger) :
    ∃ l, List.Perm (downPlan ms target L) l ∧ List.Sublist l ms := by
  unfold downPlan getAppliedMigrations
  cases target with
  | none =>
    exact ⟨_, List.perm_insertionSort verGe _, List.filter_sublist ms⟩
  | some t =>
    exact ⟨_, List.perm_insertionSort verGe _,
      List.Sublist.trans (List.filter_sublist _) (List.filter_sublist ms)⟩

/-- C7: with unique versions, the loader's output is strictly ascending by
version, `migrate_up` issues up scripts in strictly ascending version
order, and `migrate_down` issues down scripts in strictly descending
version order. -/
theorem c7_ordering (now : Nat) (store : List SqlFile)
    (exec : List Char → Bool) (tu td : Option (List Char)) (L : Ledger)
    (h : ((getMigrations now store).map Migration.version).Nodup) :
    List.Pairwise (fun m m' : Migration => lexLt m.version m'.version = true)
      (getMigrations now store) ∧
    List.Pairwise (fun m m' : Migration => lexLt m.version m'.version = true)
      (execUpMigs (migrateUp exec (getMigrations now store) tu L).2.1) ∧
    List.Pairwise (fun m m' : Migration => lexLt m'.version m.version = true)
      (execDownMigs (migrateDown exec (getMigrations now store) td L).2.1) := by
  set ms := getMigrations now store with hms
  have hasc : List.Pairwise
      (fun m m' : Migration => lexLt m.version m'.version = true) ms :=
    pairwise_lt_of_le_nodup (loaded_pairwise_le now store) h
  refine ⟨hasc, ?_, ?_⟩
  · have hplan : List.Sublist (upPlan ms tu L) ms := upPlan_sublist ms tu L
    have hsub : List.Sublist (execUpMigs (migrateUp exec ms tu L).2.1) (upPlan ms tu L) :=
      execUpMigs_sublist exec (upPlan ms tu L) L
    exact List.Pairwise.sublist (List.Sublist.trans hsub hplan) hasc
  · have hdesc : List.Pairwise
        (fun m m' : Migration => lexLt m'.version m.version = true)
        (downPlan ms td L) := by
      have hge : List.Pairwise verGe (downPlan ms td L) :=
        List.sorted_insertionSort verGe _
      obtain ⟨l, hperm, hsubl⟩ := downPlan_perm ms td L
      have hnd : ((downPlan ms td L).map Migration.version).Nodup := by
        have h1 : (l.map Migration.version).Nodup :=
          (hsubl.map Migration.version).nodup h
        exact (hperm.map Migration.version).nodup_iff.2 h1
      have hne : List.Pairwise
          (fun m m' : Migration => m.version ≠ m'.version) (downPlan ms td L) :=
        List.pairwise_map.1 hnd
      exact (hge.and hne).imp
        (fun hx => lexLt_of_pyLe_of_ne hx.1 (fun he => hx.2 he.symm))
    have hsub : List.Sublist (execDownMigs (migrateDown exec ms td L).2.1) (downPlan ms td L) :=
      execDownMigs_sublist exec (downPlan ms td L) L
    exact List.Pairwise.sublist hsub hdesc

/-- Witness for C7 at the concrete two-file store. -/
theorem c7_witness :
    ((getMigrations 0 demoStore).map Migration.version).Nodup ∧
    List.Pairwise (fun m m' : Migration => lexLt m.version m'.version = true)
      (getMigrations 0 demoStore) :=
  ⟨by decide,
   (c7_ordering 0 demoStore (fun _ => true) none none
     ["20240101000000".toList, "20240102000000".toList] (by decide)).1⟩

end MigrationEngine
